import Mathlib

/-!
Verification of the alchemy resource dependency-graph evaluator.

This file is a shallow embedding in Lean 4 of the core evaluator of the
alchemy repository (`evaluate`/`apply` in the source), together with the
filesystem providers (`fs::File`, `fs::Folder`, `ai::TypeScriptFile`) and
the `extractTypeScriptCode` helper.

Modelling conventions:
- JavaScript values that can flow through the evaluator are the inductive
  `Value`: primitives, Resource handles (identified by their `ResourceID`
  string, which per the spec is unique within a scope), Output nodes
  (a parent plus a transformation function), arrays, and keyed objects.
- Promises / async are modelled by sequentializing: `Promise.all` over a
  list evaluates left to right, threading the mutable state explicitly.
  The module-level `cache` WeakMap and the multiset of provider
  invocations become an explicit `EvalState` record threaded through
  `evaluate`; `trace` records each provider `update` invocation in order.
- The provider's `update(resource, deps, inputs)` call is modelled by a
  pure function receiving the resource id, the deduplicated dependency
  list (JS `Set` iteration order keeps first occurrences) and the
  evaluated input values, returning `Except` for rejection.
- A rejected promise is an `Except.error`; `evaluate` is made total with
  a fuel parameter (the source can diverge on self-referential Output
  chains), decremented on every recursive layer.
-/

namespace Alchemy

/-- JavaScript primitive values: everything the evaluator's base case
covers (neither Resource, Output, array nor object). -/
inductive Prim where
  | str (s : String)
  | num (n : Int)
  | bool (b : Bool)
  | null
deriving DecidableEq, Repr

/-- Concrete (fully evaluated) JavaScript values. -/
inductive JSVal where
  | prim (p : Prim)
  | arr (items : List JSVal)
  | obj (fields : List (String × JSVal))

/-- Values flowing into the evaluator: primitives, Resource handles
(carrying their `ResourceID` and declared `Input` list), Output nodes
(`parent` plus transformation `fn`), arrays and keyed objects. -/
inductive Value where
  | prim (p : Prim)
  | res (id : String) (inputs : List Value)
  | out (parent : Value) (fn : JSVal → Value)
  | arr (items : List Value)
  | obj (fields : List (String × Value))

/-- The `Evaluated` class of the source: a value paired with the list of
resource ids it transitively depended on. -/
structure Evaluated where
  value : JSVal
  deps : List String

/-- A memoization-cache entry: the promise stored in the `cache` WeakMap,
which is pending, resolved to an `Evaluated`, or rejected. -/
inductive CacheEntry where
  | pending
  | resolved (e : Evaluated)
  | rejected (msg : String)

/-- The mutable state of one process: the module-level memoization cache
(keyed by resource identity) and the ordered trace of provider `update`
invocations (one entry per call, recorded at invocation time). -/
structure EvalState where
  cache : List (String × CacheEntry)
  trace : List String

/-- A provider's `update` operation, modelled as a pure function of the
resource id, the dependency set (as a first-occurrence-ordered list) and
the evaluated inputs; `Except.error` models a rejected promise. -/
def Provider : Type := String → List String → List JSVal → Except String JSVal

/-- Lookup of a cache entry by resource id. -/
def lookupEntry (id : String) : List (String × CacheEntry) → Option CacheEntry
  | [] => none
  | (k, en) :: rest => if k = id then some en else lookupEntry id rest

/-- Store a cache entry under a resource id, replacing any previous entry
for the same id (`cache.set`). -/
def setEntry (id : String) (en : CacheEntry) : List (String × CacheEntry) → List (String × CacheEntry)
  | [] => [(id, en)]
  | (k, v) :: rest => if k = id then (id, en) :: rest else (k, v) :: setEntry id en rest

/-- Deduplication keeping first occurrences, with an accumulator of ids
already seen: the iteration order of a JS `Set` built from a list. -/
def dedupAux : List String → List String → List String
  | [], _ => []
  | x :: xs, seen => if x ∈ seen then dedupAux xs seen else x :: dedupAux xs (x :: seen)

/-- `new Set(l)` as a list in iteration order: first occurrences kept. -/
def dedupFirst (l : List String) : List String := dedupAux l []

/-- Sequential evaluation of a list of values left to right, threading
the state; the sequentialized model of `Promise.all(list.map(evaluate))`,
rejecting with the first rejection. -/
def evalListWith (f : Value → EvalState → Except String Evaluated × EvalState) :
    List Value → EvalState → Except String (List Evaluated) × EvalState
  | [], s => (.ok [], s)
  | v :: vs, s =>
    match f v s with
    | (.error e, s₁) => (.error e, s₁)
    | (.ok ev, s₁) =>
      match evalListWith f vs s₁ with
      | (.error e, s₂) => (.error e, s₂)
      | (.ok evs, s₂) => (.ok (ev :: evs), s₂)

/-- Sequential evaluation of the values of a keyed object
(`Object.entries` order), threading the state. -/
def evalFieldsWith (f : Value → EvalState → Except String Evaluated × EvalState) :
    List (String × Value) → EvalState → Except String (List (String × Evaluated)) × EvalState
  | [], s => (.ok [], s)
  | (k, v) :: kvs, s =>
    match f v s with
    | (.error e, s₁) => (.error e, s₁)
    | (.ok ev, s₁) =>
      match evalFieldsWith f kvs s₁ with
      | (.error e, s₂) => (.error e, s₂)
      | (.ok evs, s₂) => (.ok ((k, ev) :: evs), s₂)

/-- The evaluator (`evaluate` of the source), with fuel consumed at every
recursive layer. Case order follows the source: Resource handle, Output
node, array, keyed object, then the primitive base case.

Resource case, in source order: first every declared input is evaluated
(`Promise.all(resource[Input].map(evaluate))`); then the cache is
consulted and a hit returns the cached (possibly rejected) promise; on a
miss a pending placeholder is inserted eagerly — before the provider's
`update` is awaited — then the provider is invoked with the id, the
deduplicated dependency set of the inputs and the evaluated input values,
and the entry is resolved to `Evaluated(result, [resourceID, ...deps])`
or rejected with the error, which is never evicted.

A `pending` hit would mean awaiting a promise that can no longer resolve;
it is unreachable from pending-free states in this sequential model and
is mapped to an error. -/
def evaluate : Nat → Provider → Value → EvalState → Except String Evaluated × EvalState
  | 0, _, _, s => (.error "out-of-fuel", s)
  | Nat.succ fuel, prov, v, s =>
    match v with
    | .res id inputs =>
      match evalListWith (evaluate fuel prov) inputs s with
      | (.error e, s₁) => (.error e, s₁)
      | (.ok evs, s₁) =>
        match lookupEntry id s₁.cache with
        | some (.resolved ev) => (.ok ev, s₁)
        | some (.rejected msg) => (.error msg, s₁)
        | some .pending => (.error "await-pending", s₁)
        | none =>
          let s₂ : EvalState := ⟨setEntry id .pending s₁.cache, s₁.trace ++ [id]⟩
          let deps := dedupFirst (evs.flatMap (fun e => e.deps))
          let inputVals := evs.map (fun e => e.value)
          match prov id deps inputVals with
          | .ok result =>
            let ev : Evaluated := ⟨result, id :: deps⟩
            (.ok ev, ⟨setEntry id (.resolved ev) s₂.cache, s₂.trace⟩)
          | .error err =>
            (.error err, ⟨setEntry id (.rejected err) s₂.cache, s₂.trace⟩)
    | .out parent fn =>
      match evaluate fuel prov parent s with
      | (.error e, s₁) => (.error e, s₁)
      | (.ok pe, s₁) =>
        match evaluate fuel prov (fn pe.value) s₁ with
        | (.error e, s₂) => (.error e, s₂)
        | (.ok re, s₂) => (.ok ⟨re.value, pe.deps ++ re.deps⟩, s₂)
    | .arr items =>
      match evalListWith (evaluate fuel prov) items s with
      | (.error e, s₁) => (.error e, s₁)
      | (.ok evs, s₁) =>
        (.ok ⟨.arr (evs.map (fun e => e.value)), evs.flatMap (fun e => e.deps)⟩, s₁)
    | .obj fields =>
      match evalFieldsWith (evaluate fuel prov) fields s with
      | (.error e, s₁) => (.error e, s₁)
      | (.ok fevs, s₁) =>
        (.ok ⟨.obj (fevs.map (fun kv => (kv.1, kv.2.value))),
              fevs.flatMap (fun kv => kv.2.deps)⟩, s₁)
    | .prim p => (.ok ⟨.prim p, []⟩, s)

/-- The empty initial state: a fresh process with an empty module-level
cache and no provider invocations yet. -/
def initState : EvalState := ⟨[], []⟩

/-- Union of the dependency sets of a list of evaluated results. -/
def depsUnion (evs : List Evaluated) : Finset String :=
  evs.foldr (fun e acc => e.deps.toFinset ∪ acc) ∅

/-- Union of the dependency sets of the evaluated values of a keyed
object. -/
def depsUnionFields (fevs : List (String × Evaluated)) : Finset String :=
  fevs.foldr (fun kv acc => kv.2.deps.toFinset ∪ acc) ∅

/-- A sample provider used for concrete instances: resolves every
resource to the string primitive holding its own id. -/
def echoProv : Provider := fun id _ _ => .ok (.prim (.str id))

/-- A sample provider whose resource "c" always rejects and which
resolves every other id to its own name. -/
def failCProv : Provider := fun id _ _ =>
  if id = "c" then .error "boom" else .ok (.prim (.str id))

/-- Invariant tying the module cache to the invocation trace: the trace
has no duplicate ids (each provider invoked at most once per identity),
an id has a cache entry exactly when it has been invoked, no entry is
left pending at an evaluator call boundary, and the dependency ids
recorded in any resolved entry have themselves been invoked. -/
def Inv (s : EvalState) : Prop :=
  s.trace.Nodup ∧
  (∀ id, (lookupEntry id s.cache).isSome ↔ id ∈ s.trace) ∧
  (∀ id, lookupEntry id s.cache ≠ some .pending) ∧
  (∀ id ev, lookupEntry id s.cache = some (.resolved ev) → ∀ j ∈ ev.deps, j ∈ s.trace)

/-- One evaluation step preserves the invariant, only appends to the
invocation trace, and returns results whose dependency ids have all been
invoked. -/
def StepProp (f : Value → EvalState → Except String Evaluated × EvalState) : Prop :=
  ∀ v s, Inv s →
    Inv (f v s).2 ∧
    (∃ ext, (f v s).2.trace = s.trace ++ ext) ∧
    (∀ ev, (f v s).1 = .ok ev → ∀ j ∈ ev.deps, j ∈ (f v s).2.trace)

/-- Modelled from the spec: the Reconciler (spec §4.4) is not among the
provided source files; only its contract is specified. `touchedIds` is
"the union of dependency sets collected from every top-level evaluation
performed in this pass". -/
def touchedIds (evals : List Evaluated) : List String :=
  dedupFirst (evals.flatMap (fun e => e.deps))

/-- Modelled from the spec: `finalize` computes
`orphans = priorRecordIds(scope) − touchedIds(scope)` and, for each
orphan, invokes its provider operation with phase delete. The function
returns the ids for which a delete operation is issued. -/
def finalizeDeletes (priorRecordIds : List String) (evals : List Evaluated) : List String :=
  priorRecordIds.filter (fun i => i ∉ touchedIds evals)

/-! Filesystem model for the `fs::File`, `fs::Folder` and
`ai::TypeScriptFile` providers: a set of files (path with content) and a
set of directories; `node:fs` errors are surfaced by their `code`
string. -/

/-- Filesystem state: files as path/content pairs, plus directories. -/
structure FS where
  files : List (String × String)
  dirs : List String

/-- `fs.promises.unlink`: removes a file, failing with `ENOENT` when the
path does not name an existing file. -/
def unlink (p : String) (fs : FS) : Except String FS :=
  if fs.files.any (fun f => f.1 = p) then
    .ok ⟨fs.files.filter (fun f => ¬ f.1 = p), fs.dirs⟩
  else .error "ENOENT"

/-- True when `q` lies strictly inside directory `d`. -/
def inDir (d q : String) : Bool := String.isPrefixOf (d ++ "/") q

/-- `fs.promises.rmdir`: removes a directory, failing with `ENOENT` when
it does not exist and `ENOTEMPTY` when it still has children. -/
def rmdir (d : String) (fs : FS) : Except String FS :=
  if d ∈ fs.dirs then
    if fs.files.any (fun f => inDir d f.1) || fs.dirs.any (fun x => x ≠ d && inDir d x) then
      .error "ENOTEMPTY"
    else .ok ⟨fs.files, fs.dirs.filter (fun x => ¬ x = d)⟩
  else .error "ENOENT"

/-- `path.dirname`: the path with its last segment removed, or `"."`
when there is no separator. -/
def dirname (p : String) : String :=
  let parts := p.splitOn "/"
  if parts.length ≤ 1 then "." else String.intercalate "/" parts.dropLast

/-- The ancestor paths of a directory path, shortest first, ending with
the path itself. -/
def ancestorDirs (d : String) : List String :=
  let parts := d.splitOn "/"
  (List.range parts.length).map (fun i => String.intercalate "/" (parts.take (i + 1)))

/-- `fs.mkdir(…, { recursive: true })`: creates the directory and every
missing ancestor; never fails when treated as a directory path. -/
def mkdirRec (d : String) (fs : FS) : FS :=
  ⟨fs.files, (ancestorDirs d).foldl (fun ds x => if x ∈ ds then ds else ds ++ [x]) fs.dirs⟩

/-- Modelled from the spec: the `ignore` helper
(`src/alchemy/src/util/ignore.ts`) is not among the provided source
files. Per spec §7, providers "catch specific, named error conditions
and treat them as success": the action runs and an error whose code is
in `codes` is swallowed, leaving the state as the action left it
(here: unchanged, the modelled actions being atomic). -/
def ignoreE (codes : List String) (act : FS → Except String FS) (fs : FS) : Except String FS :=
  match act fs with
  | .ok fs' => .ok fs'
  | .error e => if e ∈ codes then .ok fs else .error e

/-- The delete-phase branch of the `fs::File` provider: the target path
is `props.path ?? id`; `unlink` runs under `ignore("ENOENT", …)` and the
resource is then destroyed (`this.destroy()`, whose record removal lives
outside the provided sources; the `Bool` is the destroyed flag). -/
def fileDeleteOp (id : String) (propsPath : Option String) (fs : FS) :
    Except String (FS × Bool) :=
  let filePath := propsPath.getD id
  match ignoreE ["ENOENT"] (unlink filePath) fs with
  | .ok fs' => .ok (fs', true)
  | .error e => .error e

/-- The delete-phase branch of the `fs::Folder` provider: unless
`props.delete` is `false`, `rmdir` runs under
`ignore(["ENOENT", "ENOTEMPTY"], …)`; the resource is destroyed either
way. -/
def folderDeleteOp (id : String) (propsPath : Option String)
    (propsDelete : Option Bool) (fs : FS) : Except String (FS × Bool) :=
  let dirPath := propsPath.getD id
  if propsDelete ≠ some false then
    match ignoreE ["ENOENT", "ENOTEMPTY"] (rmdir dirPath) fs with
    | .ok fs' => .ok (fs', true)
    | .error e => .error e
  else .ok (fs, true)

/-- The delete-phase path of the `ai::TypeScriptFile` provider: the
directory of `props.path` is first created recursively (the source runs
`fs.mkdir` before checking the phase), then `unlink` runs with an
explicit try/catch that rethrows every error except `ENOENT`, then the
resource is destroyed. -/
def tsFileDeleteOp (propsPath : String) (fs : FS) : Except String (FS × Bool) :=
  let fs₁ := mkdirRec (dirname propsPath) fs
  match unlink propsPath fs₁ with
  | .ok fs₂ => .ok (fs₂, true)
  | .error e => if e = "ENOENT" then .ok (fs₁, true) else .error e

/-! Model of `extractTypeScriptCode`: the regex
`/(three backticks)ts\s*([\s\S]*?)(three backticks)/g` is realised as a
left-to-right scanner. Leftmost matching of this pattern finds the first
occurrence of the opening fence, skips the maximal whitespace run, and
closes at the first closing fence that follows; `matchAll` resumes after
the closing fence. -/

/-- The whitespace class `\s` of JavaScript regexes, restricted to its
ASCII members. -/
def jsSpace (c : Char) : Bool :=
  c = ' ' || c = '\t' || c = '\n' || c = '\r' || c = '\x0b' || c = '\x0c'

/-- The opening fence of the regex: three backticks followed by `ts`. -/
def fenceOpen : List Char := "```ts".toList

/-- The closing fence of the regex: three backticks. -/
def fenceClose : List Char := "```".toList

/-- First occurrence of `pat` as a contiguous sublist: returns the part
before the occurrence and the part after it. -/
def findSub (pat : List Char) : List Char → Option (List Char × List Char)
  | [] => if pat.isEmpty then some ([], []) else none
  | c :: cs =>
    if List.isPrefixOf pat (c :: cs) then some ([], (c :: cs).drop pat.length)
    else
      match findSub pat cs with
      | some (pre, post) => some (c :: pre, post)
      | none => none

/-- One capture group per regex match: find the opening fence, skip the
maximal whitespace run, capture up to the first closing fence, resume
after it. Fuel makes the recursion structural; each step consumes at
least the two fences, so `length + 1` fuel never runs out. -/
def tsMatchesAux : Nat → List Char → List (List Char)
  | 0, _ => []
  | Nat.succ n, s =>
    match findSub fenceOpen s with
    | none => []
    | some (_, rest) =>
      let body := rest.dropWhile jsSpace
      match findSub fenceClose body with
      | none => []
      | some (captured, rest2) => captured :: tsMatchesAux n rest2

/-- All capture groups of `text.matchAll(tsCodeRegex)` in order. -/
def tsMatches (s : List Char) : List (List Char) := tsMatchesAux (s.length + 1) s

/-- JavaScript `String.prototype.trim`: whitespace stripped from both
ends. -/
def trimChars (l : List Char) : List Char :=
  ((l.dropWhile jsSpace).reverse.dropWhile jsSpace).reverse

/-- Result shape of `extractTypeScriptCode`: the extracted code and an
optional error message. -/
structure ExtractResult where
  code : String
  error : Option String

/-- The error message when no fenced block is found. -/
def noBlockError : String :=
  "No TypeScript code block found in the response. Please include your code within ```ts fences."

/-- The error message when more than one fenced block is found. -/
def multiBlockError : String :=
  "Multiple TypeScript code blocks found in the response. Please provide exactly one code block within ```ts fences."

/-- `extractTypeScriptCode` of the source: collect all regex matches; no
match or several matches yield an error with empty code, exactly one
match yields its capture group trimmed. -/
def extractTypeScriptCode (text : String) : ExtractResult :=
  let ms := tsMatches text.toList
  if ms.length = 0 then ⟨"", some noBlockError⟩
  else if ms.length > 1 then ⟨"", some multiBlockError⟩
  else ⟨String.mk (trimChars (ms.headD [])), none⟩

/-! Helper lemmas about the cache, deduplication and list evaluation. -/

theorem lookupEntry_setEntry (q id : String) (en : CacheEntry)
    (c : List (String × CacheEntry)) :
    lookupEntry q (setEntry id en c) = if id = q then some en else lookupEntry q c := by
  induction c with
  | nil => simp only [setEntry, lookupEntry]
  | cons kv rest ih =>
    obtain ⟨k, v⟩ := kv
    simp only [setEntry]
    by_cases hk : k = id
    · rw [if_pos hk]
      simp only [lookupEntry, hk]
      by_cases h : id = q <;> simp [h]
    · rw [if_neg hk]
      simp only [lookupEntry, ih]
      by_cases h : k = q
      · have hiq : ¬ id = q := fun e => hk (h.trans e.symm)
        simp [h, hiq]
      · simp [h]

theorem mem_dedupAux (j : String) :
    ∀ (l seen : List String), j ∈ dedupAux l seen ↔ j ∈ l ∧ j ∉ seen := by
  intro l
  induction l with
  | nil => intro seen; simp [dedupAux]
  | cons x xs ih =>
    intro seen
    simp only [dedupAux]
    by_cases hx : x ∈ seen
    · rw [if_pos hx, ih]
      constructor
      · rintro ⟨hj, hns⟩
        exact ⟨List.mem_cons_of_mem x hj, hns⟩
      · rintro ⟨hj, hns⟩
        rcases List.mem_cons.mp hj with rfl | h
        · exact absurd hx hns
        · exact ⟨h, hns⟩
    · rw [if_neg hx]
      constructor
      · intro hm
        rcases List.mem_cons.mp hm with rfl | h
        · exact ⟨List.mem_cons_self _ _, hx⟩
        · obtain ⟨hj, hns⟩ := (ih (x :: seen)).mp h
          exact ⟨List.mem_cons_of_mem _ hj,
            fun hs => hns (List.mem_cons_of_mem _ hs)⟩
      · rintro ⟨hj, hns⟩
        rcases List.mem_cons.mp hj with rfl | h
        · exact List.mem_cons_self _ _
        · by_cases hjx : j = x
          · subst hjx; exact List.mem_cons_self _ _
          · refine List.mem_cons_of_mem _ ((ih (x :: seen)).mpr ⟨h, ?_⟩)
            intro hs
            rcases List.mem_cons.mp hs with h' | h'
            · exact hjx h'
            · exact hns h'

theorem mem_dedupFirst (j : String) (l : List String) :
    j ∈ dedupFirst l ↔ j ∈ l := by
  unfold dedupFirst
  rw [mem_dedupAux]
  simp

theorem dedupFirst_toFinset (l : List String) :
    (dedupFirst l).toFinset = l.toFinset := by
  ext j
  simp [List.mem_toFinset, mem_dedupFirst]

theorem flatMapDeps_toFinset (evs : List Evaluated) :
    (evs.flatMap (fun e => e.deps)).toFinset = depsUnion evs := by
  induction evs with
  | nil => simp [depsUnion]
  | cons e rest ih => simp [depsUnion, List.flatMap_cons, List.toFinset_append,
      ih, List.foldr_cons]

theorem flatMapDepsFields_toFinset (fevs : List (String × Evaluated)) :
    (fevs.flatMap (fun kv => kv.2.deps)).toFinset = depsUnionFields fevs := by
  induction fevs with
  | nil => simp [depsUnionFields]
  | cons kv rest ih => simp [depsUnionFields, List.flatMap_cons, List.toFinset_append,
      ih, List.foldr_cons]

theorem evalListWith_cons_ok_inv
    (f : Value → EvalState → Except String Evaluated × EvalState)
    (v : Value) (vs : List Value) (s s' : EvalState) (evs : List Evaluated)
    (h : evalListWith f (v :: vs) s = (.ok evs, s')) :
    ∃ ev s₁ evs2, f v s = (.ok ev, s₁) ∧
      evalListWith f vs s₁ = (.ok evs2, s') ∧ evs = ev :: evs2 := by
  rcases hv : f v s with ⟨rv, s₁⟩
  rw [evalListWith, hv] at h
  cases rv with
  | error e => simp at h
  | ok ev =>
    dsimp only at h
    rcases hvs : evalListWith f vs s₁ with ⟨rvs, s₂⟩
    rw [hvs] at h
    cases rvs with
    | error e => simp at h
    | ok evs2 =>
      dsimp only at h
      simp only [Prod.mk.injEq, Except.ok.injEq] at h
      refine ⟨ev, s₁, evs2, rfl, ?_, h.1.symm⟩
      rw [hvs, h.2]

theorem evalFieldsWith_cons_ok_inv
    (f : Value → EvalState → Except String Evaluated × EvalState)
    (k : String) (v : Value) (kvs : List (String × Value)) (s s' : EvalState)
    (fevs : List (String × Evaluated))
    (h : evalFieldsWith f ((k, v) :: kvs) s = (.ok fevs, s')) :
    ∃ ev s₁ fevs2, f v s = (.ok ev, s₁) ∧
      evalFieldsWith f kvs s₁ = (.ok fevs2, s') ∧ fevs = (k, ev) :: fevs2 := by
  rcases hv : f v s with ⟨rv, s₁⟩
  rw [evalFieldsWith, hv] at h
  cases rv with
  | error e => simp at h
  | ok ev =>
    dsimp only at h
    rcases hvs : evalFieldsWith f kvs s₁ with ⟨rvs, s₂⟩
    rw [hvs] at h
    cases rvs with
    | error e => simp at h
    | ok fevs2 =>
      dsimp only at h
      simp only [Prod.mk.injEq, Except.ok.injEq] at h
      refine ⟨ev, s₁, fevs2, rfl, ?_, h.1.symm⟩
      rw [hvs, h.2]

theorem evalListWith_ok_get
    (f : Value → EvalState → Except String Evaluated × EvalState) :
    ∀ (xs : List Value) (s : EvalState) (evs : List Evaluated) (s' : EvalState),
    evalListWith f xs s = (.ok evs, s') →
    evs.length = xs.length ∧
    ∀ i (hi : i < xs.length) (hi' : i < evs.length),
      ∃ t t', f (xs.get ⟨i, hi⟩) t = (.ok (evs.get ⟨i, hi'⟩), t') := by
  intro xs
  induction xs with
  | nil =>
    intro s evs s' h
    simp only [evalListWith, Prod.mk.injEq, Except.ok.injEq] at h
    cases h.1
    exact ⟨rfl, fun i hi _ => absurd hi (by simp)⟩
  | cons v vs ih =>
    intro s evs s' h
    obtain ⟨ev, s₁, evs2, hv, hvs, rfl⟩ := evalListWith_cons_ok_inv f v vs s s' evs h
    obtain ⟨hlen, hget⟩ := ih s₁ evs2 s' hvs
    refine ⟨by simp [hlen], ?_⟩
    intro i hi hi'
    cases i with
    | zero => exact ⟨s, s₁, hv⟩
    | succ n =>
      have hn : n < vs.length := by simpa using hi
      have hn' : n < evs2.length := by simpa using hi'
      exact hget n hn hn'

/-! Branch equations for `evaluate`, one per control path of the source
function. -/

theorem evaluate_zero (prov : Provider) (v : Value) (s : EvalState) :
    evaluate 0 prov v s = (.error "out-of-fuel", s) := rfl

theorem evaluate_prim (fuel : Nat) (prov : Provider) (p : Prim) (s : EvalState) :
    evaluate (fuel + 1) prov (.prim p) s = (.ok ⟨.prim p, []⟩, s) := rfl

theorem evaluate_res_inputs_err (fuel : Nat) (prov : Provider) (id : String)
    (inputs : List Value) (s s₁ : EvalState) (e : String)
    (h : evalListWith (evaluate fuel prov) inputs s = (.error e, s₁)) :
    evaluate (fuel + 1) prov (.res id inputs) s = (.error e, s₁) := by
  rw [evaluate, h]

theorem evaluate_res_hit (fuel : Nat) (prov : Provider) (id : String)
    (inputs : List Value) (s s₁ : EvalState) (evs : List Evaluated) (ev : Evaluated)
    (hin : evalListWith (evaluate fuel prov) inputs s = (.ok evs, s₁))
    (hhit : lookupEntry id s₁.cache = some (.resolved ev)) :
    evaluate (fuel + 1) prov (.res id inputs) s = (.ok ev, s₁) := by
  rw [evaluate, hin]
  dsimp only
  rw [hhit]

theorem evaluate_res_hit_rejected (fuel : Nat) (prov : Provider) (id : String)
    (inputs : List Value) (s s₁ : EvalState) (evs : List Evaluated) (msg : String)
    (hin : evalListWith (evaluate fuel prov) inputs s = (.ok evs, s₁))
    (hhit : lookupEntry id s₁.cache = some (.rejected msg)) :
    evaluate (fuel + 1) prov (.res id inputs) s = (.error msg, s₁) := by
  rw [evaluate, hin]
  dsimp only
  rw [hhit]

theorem evaluate_res_hit_pending (fuel : Nat) (prov : Provider) (id : String)
    (inputs : List Value) (s s₁ : EvalState) (evs : List Evaluated)
    (hin : evalListWith (evaluate fuel prov) inputs s = (.ok evs, s₁))
    (hhit : lookupEntry id s₁.cache = some .pending) :
    evaluate (fuel + 1) prov (.res id inputs) s = (.error "await-pending", s₁) := by
  rw [evaluate, hin]
  dsimp only
  rw [hhit]

theorem evaluate_res_miss_ok (fuel : Nat) (prov : Provider) (id : String)
    (inputs : List Value) (s s₁ : EvalState) (evs : List Evaluated) (result : JSVal)
    (hin : evalListWith (evaluate fuel prov) inputs s = (.ok evs, s₁))
    (hmiss : lookupEntry id s₁.cache = none)
    (hprov : prov id (dedupFirst (evs.flatMap (fun e => e.deps)))
      (evs.map (fun e => e.value)) = .ok result) :
    evaluate (fuel + 1) prov (.res id inputs) s =
      (.ok ⟨result, id :: dedupFirst (evs.flatMap (fun e => e.deps))⟩,
       ⟨setEntry id (.resolved ⟨result, id :: dedupFirst (evs.flatMap (fun e => e.deps))⟩)
          (setEntry id .pending s₁.cache),
        s₁.trace ++ [id]⟩) := by
  rw [evaluate, hin]
  dsimp only
  rw [hmiss]
  dsimp only
  rw [hprov]

theorem evaluate_res_miss_err (fuel : Nat) (prov : Provider) (id : String)
    (inputs : List Value) (s s₁ : EvalState) (evs : List Evaluated) (err : String)
    (hin : evalListWith (evaluate fuel prov) inputs s = (.ok evs, s₁))
    (hmiss : lookupEntry id s₁.cache = none)
    (hprov : prov id (dedupFirst (evs.flatMap (fun e => e.deps)))
      (evs.map (fun e => e.value)) = .error err) :
    evaluate (fuel + 1) prov (.res id inputs) s =
      (.error err,
       ⟨setEntry id (.rejected err) (setEntry id .pending s₁.cache),
        s₁.trace ++ [id]⟩) := by
  rw [evaluate, hin]
  dsimp only
  rw [hmiss]
  dsimp only
  rw [hprov]

theorem evaluate_out_parent_err (fuel : Nat) (prov : Provider) (parent : Value)
    (fn : JSVal → Value) (s s₁ : EvalState) (e : String)
    (h : evaluate fuel prov parent s = (.error e, s₁)) :
    evaluate (fuel + 1) prov (.out parent fn) s = (.error e, s₁) := by
  rw [evaluate, h]

theorem evaluate_out_fn_err (fuel : Nat) (prov : Provider) (parent : Value)
    (fn : JSVal → Value) (s s₁ s₂ : EvalState) (pe : Evaluated) (e : String)
    (hp : evaluate fuel prov parent s = (.ok pe, s₁))
    (hr : evaluate fuel prov (fn pe.value) s₁ = (.error e, s₂)) :
    evaluate (fuel + 1) prov (.out parent fn) s = (.error e, s₂) := by
  rw [evaluate, hp]
  dsimp only
  rw [hr]

theorem evaluate_out_ok (fuel : Nat) (prov : Provider) (parent : Value)
    (fn : JSVal → Value) (s s₁ s₂ : EvalState) (pe re : Evaluated)
    (hp : evaluate fuel prov parent s = (.ok pe, s₁))
    (hr : evaluate fuel prov (fn pe.value) s₁ = (.ok re, s₂)) :
    evaluate (fuel + 1) prov (.out parent fn) s =
      (.ok ⟨re.value, pe.deps ++ re.deps⟩, s₂) := by
  rw [evaluate, hp]
  dsimp only
  rw [hr]

theorem evaluate_arr_err (fuel : Nat) (prov : Provider) (items : List Value)
    (s s₁ : EvalState) (e : String)
    (h : evalListWith (evaluate fuel prov) items s = (.error e, s₁)) :
    evaluate (fuel + 1) prov (.arr items) s = (.error e, s₁) := by
  rw [evaluate, h]

theorem evaluate_arr_ok (fuel : Nat) (prov : Provider) (items : List Value)
    (s s₁ : EvalState) (evs : List Evaluated)
    (h : evalListWith (evaluate fuel prov) items s = (.ok evs, s₁)) :
    evaluate (fuel + 1) prov (.arr items) s =
      (.ok ⟨.arr (evs.map (fun e => e.value)), evs.flatMap (fun e => e.deps)⟩, s₁) := by
  rw [evaluate, h]

theorem evaluate_obj_err (fuel : Nat) (prov : Provider) (fields : List (String × Value))
    (s s₁ : EvalState) (e : String)
    (h : evalFieldsWith (evaluate fuel prov) fields s = (.error e, s₁)) :
    evaluate (fuel + 1) prov (.obj fields) s = (.error e, s₁) := by
  rw [evaluate, h]

theorem evaluate_obj_ok (fuel : Nat) (prov : Provider) (fields : List (String × Value))
    (s s₁ : EvalState) (fevs : List (String × Evaluated))
    (h : evalFieldsWith (evaluate fuel prov) fields s = (.ok fevs, s₁)) :
    evaluate (fuel + 1) prov (.obj fields) s =
      (.ok ⟨.obj (fevs.map (fun kv => (kv.1, kv.2.value))),
            fevs.flatMap (fun kv => kv.2.deps)⟩, s₁) := by
  rw [evaluate, h]

/-! The step invariant: evaluation preserves `Inv`, only appends to the
trace, and returns dependency ids that have been invoked. -/

theorem Inv_initState : Inv initState := by
  refine ⟨List.nodup_nil, ?_, ?_, ?_⟩
  · intro id
    simp [initState, lookupEntry]
  · intro id
    simp [initState, lookupEntry]
  · intro id ev h
    simp [initState, lookupEntry] at h

theorem evalListWith_step
    (f : Value → EvalState → Except String Evaluated × EvalState)
    (hf : StepProp f) :
    ∀ (xs : List Value) (s : EvalState), Inv s →
    Inv (evalListWith f xs s).2 ∧
    (∃ ext, (evalListWith f xs s).2.trace = s.trace ++ ext) ∧
    (∀ evs, (evalListWith f xs s).1 = .ok evs →
      ∀ ev ∈ evs, ∀ j ∈ ev.deps, j ∈ (evalListWith f xs s).2.trace) := by
  intro xs
  induction xs with
  | nil =>
    intro s hs
    refine ⟨hs, ⟨[], by simp [evalListWith]⟩, ?_⟩
    intro evs hevs ev hev
    have h0 : ([] : List Evaluated) = evs := Except.ok.inj hevs
    subst h0
    exact absurd hev (List.not_mem_nil ev)
  | cons v vs ih =>
    intro s hs
    have hfv := hf v s hs
    rcases hv : f v s with ⟨rv, s₁⟩
    rw [hv] at hfv
    dsimp only at hfv
    obtain ⟨hInv₁, ⟨e₁, he₁⟩, hres⟩ := hfv
    cases rv with
    | error e =>
      have heq : evalListWith f (v :: vs) s = (.error e, s₁) := by
        rw [evalListWith, hv]
      rw [heq]
      exact ⟨hInv₁, ⟨e₁, he₁⟩, fun evs h => Except.noConfusion h⟩
    | ok ev =>
      rcases hl : evalListWith f vs s₁ with ⟨rl, s₂⟩
      have hrec := ih s₁ hInv₁
      rw [hl] at hrec
      dsimp only at hrec
      obtain ⟨hInv₂, ⟨e₂, he₂⟩, hres₂⟩ := hrec
      cases rl with
      | error e =>
        have heq : evalListWith f (v :: vs) s = (.error e, s₂) := by
          rw [evalListWith, hv]
          dsimp only
          rw [hl]
        rw [heq]
        refine ⟨hInv₂, ⟨e₁ ++ e₂, ?_⟩, fun evs h => Except.noConfusion h⟩
        rw [he₂, he₁, List.append_assoc]
      | ok evs2 =>
        have heq : evalListWith f (v :: vs) s = (.ok (ev :: evs2), s₂) := by
          rw [evalListWith, hv]
          dsimp only
          rw [hl]
        rw [heq]
        dsimp only
        refine ⟨hInv₂, ⟨e₁ ++ e₂, by rw [he₂, he₁, List.append_assoc]⟩, ?_⟩
        intro evs h ev' hev' j hj
        have hevs : ev :: evs2 = evs := Except.ok.inj h
        subst hevs
        rcases List.mem_cons.mp hev' with rfl | hmem
        · have hj₁ : j ∈ s₁.trace := hres ev' rfl j hj
          rw [he₂]
          exact List.mem_append_left _ hj₁
        · exact hres₂ evs2 rfl ev' hmem j hj

theorem evalFieldsWith_step
    (f : Value → EvalState → Except String Evaluated × EvalState)
    (hf : StepProp f) :
    ∀ (kvs : List (String × Value)) (s : EvalState), Inv s →
    Inv (evalFieldsWith f kvs s).2 ∧
    (∃ ext, (evalFieldsWith f kvs s).2.trace = s.trace ++ ext) ∧
    (∀ fevs, (evalFieldsWith f kvs s).1 = .ok fevs →
      ∀ kv ∈ fevs, ∀ j ∈ kv.2.deps, j ∈ (evalFieldsWith f kvs s).2.trace) := by
  intro kvs
  induction kvs with
  | nil =>
    intro s hs
    refine ⟨hs, ⟨[], by simp [evalFieldsWith]⟩, ?_⟩
    intro fevs hevs kv hkv
    have h0 : ([] : List (String × Evaluated)) = fevs := Except.ok.inj hevs
    subst h0
    exact absurd hkv (List.not_mem_nil kv)
  | cons kv₀ kvs ih =>
    obtain ⟨k, v⟩ := kv₀
    intro s hs
    have hfv := hf v s hs
    rcases hv : f v s with ⟨rv, s₁⟩
    rw [hv] at hfv
    dsimp only at hfv
    obtain ⟨hInv₁, ⟨e₁, he₁⟩, hres⟩ := hfv
    cases rv with
    | error e =>
      have heq : evalFieldsWith f ((k, v) :: kvs) s = (.error e, s₁) := by
        rw [evalFieldsWith, hv]
      rw [heq]
      exact ⟨hInv₁, ⟨e₁, he₁⟩, fun fevs h => Except.noConfusion h⟩
    | ok ev =>
      rcases hl : evalFieldsWith f kvs s₁ with ⟨rl, s₂⟩
      have hrec := ih s₁ hInv₁
      rw [hl] at hrec
      dsimp only at hrec
      obtain ⟨hInv₂, ⟨e₂, he₂⟩, hres₂⟩ := hrec
      cases rl with
      | error e =>
        have heq : evalFieldsWith f ((k, v) :: kvs) s = (.error e, s₂) := by
          rw [evalFieldsWith, hv]
          dsimp only
          rw [hl]
        rw [heq]
        refine ⟨hInv₂, ⟨e₁ ++ e₂, ?_⟩, fun fevs h => Except.noConfusion h⟩
        rw [he₂, he₁, List.append_assoc]
      | ok fevs2 =>
        have heq : evalFieldsWith f ((k, v) :: kvs) s = (.ok ((k, ev) :: fevs2), s₂) := by
          rw [evalFieldsWith, hv]
          dsimp only
          rw [hl]
        rw [heq]
        dsimp only
        refine ⟨hInv₂, ⟨e₁ ++ e₂, by rw [he₂, he₁, List.append_assoc]⟩, ?_⟩
        intro fevs h kv' hkv' j hj
        have hevs : (k, ev) :: fevs2 = fevs := Except.ok.inj h
        subst hevs
        rcases List.mem_cons.mp hkv' with rfl | hmem
        · have hj₁ : j ∈ s₁.trace := hres ev rfl j hj
          rw [he₂]
          exact List.mem_append_left _ hj₁
        · exact hres₂ fevs2 rfl kv' hmem j hj

theorem evaluate_step (fuel : Nat) : ∀ (prov : Provider), StepProp (evaluate fuel prov) := by
  induction fuel with
  | zero =>
    intro prov v s hs
    rw [evaluate_zero]
    exact ⟨hs, ⟨[], by simp⟩, fun ev h => Except.noConfusion h⟩
  | succ fuel ih =>
    intro prov v s hs
    cases v with
    | prim p =>
      rw [evaluate_prim]
      refine ⟨hs, ⟨[], by simp⟩, ?_⟩
      intro ev h j hj
      have : Evaluated.mk (.prim p) [] = ev := Except.ok.inj h
      subst this
      exact absurd hj (List.not_mem_nil j)
    | res id inputs =>
      rcases hl : evalListWith (evaluate fuel prov) inputs s with ⟨rl, s₁⟩
      have hstep := evalListWith_step (evaluate fuel prov) (ih prov) inputs s hs
      rw [hl] at hstep
      dsimp only at hstep
      obtain ⟨hInv₁, ⟨e₁, he₁⟩, helem⟩ := hstep
      cases rl with
      | error e =>
        rw [evaluate_res_inputs_err fuel prov id inputs s s₁ e hl]
        exact ⟨hInv₁, ⟨e₁, he₁⟩, fun ev h => Except.noConfusion h⟩
      | ok evs =>
        obtain ⟨hnd, hiff, hnp, hdeps⟩ := hInv₁
        rcases hlk : lookupEntry id s₁.cache with _ | en
        · -- cache miss: the provider is invoked
          have hid : id ∉ s₁.trace := by
            intro hmem
            have h' := (hiff id).mpr hmem
            rw [hlk] at h'
            simp at h'
          have hdepsin : ∀ j ∈ dedupFirst (evs.flatMap (fun e => e.deps)), j ∈ s₁.trace := by
            intro j hj
            have hj' := (mem_dedupFirst j _).mp hj
            obtain ⟨ev', hev', hjd⟩ := List.mem_flatMap.mp hj'
            exact helem evs rfl ev' hev' j hjd
          have hnd' : (s₁.trace ++ [id]).Nodup := by
            refine List.nodup_append.mpr ⟨hnd, List.nodup_singleton id, ?_⟩
            intro a ha hb
            rcases List.mem_singleton.mp hb with rfl
            exact hid ha
          have hmemtr : ∀ j, j ∈ s₁.trace → j ∈ s₁.trace ++ [id] :=
            fun j hj => List.mem_append_left _ hj
          rcases hp : prov id (dedupFirst (evs.flatMap (fun e => e.deps)))
              (evs.map (fun e => e.value)) with err | result
          · -- provider rejected: entry rejected, not evicted
            rw [evaluate_res_miss_err fuel prov id inputs s s₁ evs err hl hlk hp]
            dsimp only
            have hlookup : ∀ q, lookupEntry q
                (setEntry id (.rejected err) (setEntry id .pending s₁.cache)) =
                if id = q then some (.rejected err) else lookupEntry q s₁.cache := by
              intro q
              rw [lookupEntry_setEntry, lookupEntry_setEntry]
              by_cases h : id = q <;> simp [h]
            refine ⟨⟨hnd', ?_, ?_, ?_⟩, ⟨e₁ ++ [id], by rw [he₁, List.append_assoc]⟩,
              fun ev h => Except.noConfusion h⟩
            · intro q
              rw [hlookup q]
              by_cases h : id = q
              · subst h
                rw [if_pos rfl]
                simp [List.mem_append]
              · rw [if_neg h, hiff q]
                constructor
                · intro hq
                  exact List.mem_append_left _ hq
                · intro hq
                  rcases List.mem_append.mp hq with hq | hq
                  · exact hq
                  · exact absurd (List.mem_singleton.mp hq).symm h
            · intro q
              rw [hlookup q]
              by_cases h : id = q <;> simp [h]
              exact hnp q
            · intro q evq hq j hj
              rw [hlookup q] at hq
              by_cases h : id = q
              · rw [if_pos h] at hq
                exact absurd (Option.some.inj hq) (by simp)
              · rw [if_neg h] at hq
                exact hmemtr j (hdeps q evq hq j hj)
          · -- provider resolved: entry resolved and recorded
            rw [evaluate_res_miss_ok fuel prov id inputs s s₁ evs result hl hlk hp]
            dsimp only
            have hlookup : ∀ q, lookupEntry q
                (setEntry id (.resolved ⟨result, id :: dedupFirst (evs.flatMap (fun e => e.deps))⟩)
                  (setEntry id .pending s₁.cache)) =
                if id = q then some (.resolved ⟨result, id :: dedupFirst (evs.flatMap (fun e => e.deps))⟩)
                else lookupEntry q s₁.cache := by
              intro q
              rw [lookupEntry_setEntry, lookupEntry_setEntry]
              by_cases h : id = q <;> simp [h]
            refine ⟨⟨hnd', ?_, ?_, ?_⟩, ⟨e₁ ++ [id], by rw [he₁, List.append_assoc]⟩, ?_⟩
            · intro q
              rw [hlookup q]
              by_cases h : id = q
              · subst h
                rw [if_pos rfl]
                simp [List.mem_append]
              · rw [if_neg h, hiff q]
                constructor
                · intro hq
                  exact List.mem_append_left _ hq
                · intro hq
                  rcases List.mem_append.mp hq with hq | hq
                  · exact hq
                  · exact absurd (List.mem_singleton.mp hq).symm h
            · intro q
              rw [hlookup q]
              by_cases h : id = q <;> simp [h]
              exact hnp q
            · intro q evq hq j hj
              rw [hlookup q] at hq
              by_cases h : id = q
              · rw [if_pos h] at hq
                have hevq : Evaluated.mk result (id :: dedupFirst (evs.flatMap (fun e => e.deps))) = evq := by
                  have h2 := Option.some.inj hq
                  exact CacheEntry.resolved.inj h2
                subst hevq
                rcases List.mem_cons.mp hj with rfl | hjd
                · exact List.mem_append_right _ (List.mem_singleton.mpr rfl)
                · exact hmemtr j (hdepsin j hjd)
              · rw [if_neg h] at hq
                exact hmemtr j (hdeps q evq hq j hj)
            · intro ev h j hj
              have hev : Evaluated.mk result (id :: dedupFirst (evs.flatMap (fun e => e.deps))) = ev :=
                Except.ok.inj h
              subst hev
              rcases List.mem_cons.mp hj with rfl | hjd
              · exact List.mem_append_right _ (List.mem_singleton.mpr rfl)
              · exact hmemtr j (hdepsin j hjd)
        · -- cache hit
          cases en with
          | resolved ev =>
            rw [evaluate_res_hit fuel prov id inputs s s₁ evs ev hl hlk]
            refine ⟨⟨hnd, hiff, hnp, hdeps⟩, ⟨e₁, he₁⟩, ?_⟩
            intro ev' h j hj
            have : ev = ev' := Except.ok.inj h
            subst this
            exact hdeps id ev hlk j hj
          | rejected msg =>
            rw [evaluate_res_hit_rejected fuel prov id inputs s s₁ evs msg hl hlk]
            exact ⟨⟨hnd, hiff, hnp, hdeps⟩, ⟨e₁, he₁⟩, fun ev h => Except.noConfusion h⟩
          | pending =>
            exact absurd hlk (hnp id)
    | out parent fn =>
      rcases hp : evaluate fuel prov parent s with ⟨rp, s₁⟩
      have h1 := ih prov parent s hs
      rw [hp] at h1
      dsimp only at h1
      obtain ⟨hInv₁, ⟨e₁, he₁⟩, hres₁⟩ := h1
      cases rp with
      | error e =>
        rw [evaluate_out_parent_err fuel prov parent fn s s₁ e hp]
        exact ⟨hInv₁, ⟨e₁, he₁⟩, fun ev h => Except.noConfusion h⟩
      | ok pe =>
        rcases hr : evaluate fuel prov (fn pe.value) s₁ with ⟨rr, s₂⟩
        have h2 := ih prov (fn pe.value) s₁ hInv₁
        rw [hr] at h2
        dsimp only at h2
        obtain ⟨hInv₂, ⟨e₂, he₂⟩, hres₂⟩ := h2
        cases rr with
        | error e =>
          rw [evaluate_out_fn_err fuel prov parent fn s s₁ s₂ pe e hp hr]
          refine ⟨hInv₂, ⟨e₁ ++ e₂, ?_⟩, fun ev h => Except.noConfusion h⟩
          rw [he₂, he₁, List.append_assoc]
        | ok re =>
          rw [evaluate_out_ok fuel prov parent fn s s₁ s₂ pe re hp hr]
          dsimp only
          refine ⟨hInv₂, ⟨e₁ ++ e₂, by rw [he₂, he₁, List.append_assoc]⟩, ?_⟩
          intro ev h j hj
          have hev : Evaluated.mk re.value (pe.deps ++ re.deps) = ev := Except.ok.inj h
          subst hev
          rcases List.mem_append.mp hj with hjp | hjr
          · have := hres₁ pe rfl j hjp
            rw [he₂]
            exact List.mem_append_left _ this
          · exact hres₂ re rfl j hjr
    | arr items =>
      rcases hl : evalListWith (evaluate fuel prov) items s with ⟨rl, s₁⟩
      have hstep := evalListWith_step (evaluate fuel prov) (ih prov) items s hs
      rw [hl] at hstep
      dsimp only at hstep
      obtain ⟨hInv₁, ⟨e₁, he₁⟩, helem⟩ := hstep
      cases rl with
      | error e =>
        rw [evaluate_arr_err fuel prov items s s₁ e hl]
        exact ⟨hInv₁, ⟨e₁, he₁⟩, fun ev h => Except.noConfusion h⟩
      | ok evs =>
        rw [evaluate_arr_ok fuel prov items s s₁ evs hl]
        dsimp only
        refine ⟨hInv₁, ⟨e₁, he₁⟩, ?_⟩
        intro ev h j hj
        have hev : Evaluated.mk (.arr (evs.map (fun e => e.value)))
            (evs.flatMap (fun e => e.deps)) = ev := Except.ok.inj h
        subst hev
        obtain ⟨ev', hev', hjd⟩ := List.mem_flatMap.mp hj
        exact helem evs rfl ev' hev' j hjd
    | obj fields =>
      rcases hl : evalFieldsWith (evaluate fuel prov) fields s with ⟨rl, s₁⟩
      have hstep := evalFieldsWith_step (evaluate fuel prov) (ih prov) fields s hs
      rw [hl] at hstep
      dsimp only at hstep
      obtain ⟨hInv₁, ⟨e₁, he₁⟩, helem⟩ := hstep
      cases rl with
      | error e =>
        rw [evaluate_obj_err fuel prov fields s s₁ e hl]
        exact ⟨hInv₁, ⟨e₁, he₁⟩, fun ev h => Except.noConfusion h⟩
      | ok fevs =>
        rw [evaluate_obj_ok fuel prov fields s s₁ fevs hl]
        dsimp only
        refine ⟨hInv₁, ⟨e₁, he₁⟩, ?_⟩
        intro ev h j hj
        have hev : Evaluated.mk (.obj (fevs.map (fun kv => (kv.1, kv.2.value))))
            (fevs.flatMap (fun kv => kv.2.deps)) = ev := Except.ok.inj h
        subst hev
        obtain ⟨kv', hkv', hjd⟩ := List.mem_flatMap.mp hj
        exact helem fevs rfl kv' hkv' j hjd

/-! Claim theorems. -/

/-- C1: within a single evaluation pass (an evaluation started from the
fresh initial state), the provider `update` operation is invoked at most
once per Resource Handle identity — the invocation trace carries no
duplicate id — and every resource id contributing to a successful result
appears in the trace exactly once. In particular a handle reachable via
two or more distinct reference paths has its provider invoked exactly
once: the entry inserted into the cache before the provider operation is
awaited is what every later reference observes and returns. -/
theorem provider_invoked_exactly_once (fuel : Nat) (prov : Provider) (v : Value) :
    (evaluate fuel prov v initState).2.trace.Nodup ∧
    (∀ ev, (evaluate fuel prov v initState).1 = .ok ev →
      ∀ id ∈ ev.deps, (evaluate fuel prov v initState).2.trace.count id = 1) := by
  obtain ⟨hInv, _, hres⟩ := evaluate_step fuel prov v initState Inv_initState
  refine ⟨hInv.1, ?_⟩
  intro ev h id hid
  exact List.count_eq_one_of_mem hInv.1 (hres ev h id hid)

/-- Witness for C1 at a diamond graph: resource "b" is reachable both as
an input of resource "a" and directly as a second array element, yet its
provider is invoked exactly once. -/
theorem provider_invoked_exactly_once_witness :
    (evaluate 3 echoProv (.arr [.res "a" [.res "b" []], .res "b" []]) initState).2.trace.Nodup ∧
    (evaluate 3 echoProv (.arr [.res "a" [.res "b" []], .res "b" []]) initState).2.trace.count "b" = 1 :=
  ⟨(provider_invoked_exactly_once 3 echoProv (.arr [.res "a" [.res "b" []], .res "b" []])).1,
   (provider_invoked_exactly_once 3 echoProv (.arr [.res "a" [.res "b" []], .res "b" []])).2
     ⟨.arr [.prim (.str "a"), .prim (.str "b")], ["a", "b", "b"]⟩ rfl "b" (by simp)⟩

/-- C6: forcing an Output evaluates the parent to completion, applies
the transformation to the parent's value, then recursively evaluates the
transformation's result; the final value is the recursively evaluated
result's value and the final dependency set equals, as a set, the
parent's dependency set united with the result's. -/
theorem output_forces_parent_then_result (fuel : Nat) (prov : Provider) (parent : Value)
    (fn : JSVal → Value) (s s₁ s₂ : EvalState) (pe re : Evaluated)
    (hp : evaluate fuel prov parent s = (.ok pe, s₁))
    (hr : evaluate fuel prov (fn pe.value) s₁ = (.ok re, s₂)) :
    evaluate (fuel + 1) prov (.out parent fn) s = (.ok ⟨re.value, pe.deps ++ re.deps⟩, s₂) ∧
    (pe.deps ++ re.deps).toFinset = pe.deps.toFinset ∪ re.deps.toFinset :=
  ⟨evaluate_out_ok fuel prov parent fn s s₁ s₂ pe re hp hr, List.toFinset_append⟩

/-- Witness for C6: an Output whose transformation returns another
Resource Handle; the parent resolves first, the returned handle is then
evaluated, and the dependency sets accumulate. -/
theorem output_forces_parent_then_result_witness :
    evaluate 2 echoProv (.out (.res "p" []) (fun _ => .res "q" [])) initState =
      (.ok ⟨.prim (.str "q"), ["p"] ++ ["q"]⟩,
       ⟨[("p", .resolved ⟨.prim (.str "p"), ["p"]⟩),
         ("q", .resolved ⟨.prim (.str "q"), ["q"]⟩)], ["p", "q"]⟩) ∧
    ((["p"] ++ ["q"] : List String)).toFinset =
      (["p"] : List String).toFinset ∪ (["q"] : List String).toFinset :=
  output_forces_parent_then_result 1 echoProv (.res "p" []) (fun _ => .res "q" [])
    initState ⟨[("p", .resolved ⟨.prim (.str "p"), ["p"]⟩)], ["p"]⟩
    ⟨[("p", .resolved ⟨.prim (.str "p"), ["p"]⟩),
      ("q", .resolved ⟨.prim (.str "q"), ["q"]⟩)], ["p", "q"]⟩
    ⟨.prim (.str "p"), ["p"]⟩ ⟨.prim (.str "q"), ["q"]⟩ rfl rfl

/-- C7: evaluating an array returns an array of the same length whose
position i holds the evaluated value of input element i (each element of
the result list is the evaluation of the corresponding input element),
and the dependency set is the union of the elements' dependency sets. -/
theorem sequence_order_preserved (fuel : Nat) (prov : Provider) (xs : List Value)
    (s s₁ : EvalState) (evs : List Evaluated)
    (h : evalListWith (evaluate fuel prov) xs s = (.ok evs, s₁)) :
    evaluate (fuel + 1) prov (.arr xs) s =
      (.ok ⟨.arr (evs.map (fun e => e.value)), evs.flatMap (fun e => e.deps)⟩, s₁) ∧
    evs.length = xs.length ∧
    (∀ i (hi : i < xs.length) (hi' : i < evs.length),
      ∃ t t', evaluate fuel prov (xs.get ⟨i, hi⟩) t = (.ok (evs.get ⟨i, hi'⟩), t')) ∧
    (evs.flatMap (fun e => e.deps)).toFinset = depsUnion evs := by
  obtain ⟨hlen, hget⟩ := evalListWith_ok_get (evaluate fuel prov) xs s evs s₁ h
  exact ⟨evaluate_arr_ok fuel prov xs s s₁ evs h, hlen, hget, flatMapDeps_toFinset evs⟩

/-- Witness for C7 at the two-resource array `[a, b]`: the result holds
a's value at position 0 and b's value at position 1. -/
theorem sequence_order_preserved_witness :
    evaluate 2 echoProv (.arr [.res "a" [], .res "b" []]) initState =
      (.ok ⟨.arr [.prim (.str "a"), .prim (.str "b")], ["a", "b"]⟩,
       ⟨[("a", .resolved ⟨.prim (.str "a"), ["a"]⟩),
         ("b", .resolved ⟨.prim (.str "b"), ["b"]⟩)], ["a", "b"]⟩) ∧
    (∃ t t', evaluate 1 echoProv (.res "b" []) t = (.ok ⟨.prim (.str "b"), ["b"]⟩, t')) := by
  have T := sequence_order_preserved 1 echoProv [.res "a" [], .res "b" []] initState
    ⟨[("a", .resolved ⟨.prim (.str "a"), ["a"]⟩),
      ("b", .resolved ⟨.prim (.str "b"), ["b"]⟩)], ["a", "b"]⟩
    [⟨.prim (.str "a"), ["a"]⟩, ⟨.prim (.str "b"), ["b"]⟩] rfl
  exact ⟨T.1, T.2.2.1 1 (by norm_num) (by norm_num)⟩

/-- C8: a primitive or opaque value — neither Resource Handle, Output,
array nor keyed object — evaluates to itself with an empty dependency
set, leaving the state untouched. -/
theorem primitive_evaluates_unchanged (fuel : Nat) (prov : Provider) (p : Prim) (s : EvalState) :
    evaluate (fuel + 1) prov (.prim p) s = (.ok ⟨.prim p, []⟩, s) :=
  evaluate_prim fuel prov p s

/-- C2: the dependency set of an evaluated composite (array or keyed
object) equals, as a set, the union of its children's dependency sets;
the dependency set of a freshly applied Resource Handle equals its own
id united with the union of its evaluated inputs' dependency sets. -/
theorem dependency_closure (fuel : Nat) (prov : Provider) :
    (∀ (xs : List Value) (s s₁ : EvalState) (evs : List Evaluated),
      evalListWith (evaluate fuel prov) xs s = (.ok evs, s₁) →
      evaluate (fuel + 1) prov (.arr xs) s =
        (.ok ⟨.arr (evs.map (fun e => e.value)), evs.flatMap (fun e => e.deps)⟩, s₁) ∧
      (evs.flatMap (fun e => e.deps)).toFinset = depsUnion evs) ∧
    (∀ (fields : List (String × Value)) (s s₁ : EvalState) (fevs : List (String × Evaluated)),
      evalFieldsWith (evaluate fuel prov) fields s = (.ok fevs, s₁) →
      evaluate (fuel + 1) prov (.obj fields) s =
        (.ok ⟨.obj (fevs.map (fun kv => (kv.1, kv.2.value))),
              fevs.flatMap (fun kv => kv.2.deps)⟩, s₁) ∧
      (fevs.flatMap (fun kv => kv.2.deps)).toFinset = depsUnionFields fevs) ∧
    (∀ (id : String) (inputs : List Value) (s s₁ : EvalState) (evs : List Evaluated)
      (result : JSVal),
      evalListWith (evaluate fuel prov) inputs s = (.ok evs, s₁) →
      lookupEntry id s₁.cache = none →
      prov id (dedupFirst (evs.flatMap (fun e => e.deps)))
        (evs.map (fun e => e.value)) = .ok result →
      (evaluate (fuel + 1) prov (.res id inputs) s).1 =
        .ok ⟨result, id :: dedupFirst (evs.flatMap (fun e => e.deps))⟩ ∧
      (id :: dedupFirst (evs.flatMap (fun e => e.deps))).toFinset =
        insert id (depsUnion evs)) := by
  refine ⟨?_, ?_, ?_⟩
  · intro xs s s₁ evs h
    exact ⟨evaluate_arr_ok fuel prov xs s s₁ evs h, flatMapDeps_toFinset evs⟩
  · intro fields s s₁ fevs h
    exact ⟨evaluate_obj_ok fuel prov fields s s₁ fevs h, flatMapDepsFields_toFinset fevs⟩
  · intro id inputs s s₁ evs result hin hmiss hprov
    constructor
    · rw [evaluate_res_miss_ok fuel prov id inputs s s₁ evs result hin hmiss hprov]
    · rw [List.toFinset_cons, dedupFirst_toFinset, flatMapDeps_toFinset]

/-- Witness for C2: a one-element array, a one-field object, and a
resource with one evaluated input, each at concrete values. -/
theorem dependency_closure_witness :
    (evaluate 2 echoProv (.arr [.res "a" []]) initState).1 =
      .ok ⟨.arr [.prim (.str "a")], ["a"]⟩ ∧
    (evaluate 2 echoProv (.obj [("k", .res "b" [])]) initState).1 =
      .ok ⟨.obj [("k", .prim (.str "b"))], ["b"]⟩ ∧
    (evaluate 2 echoProv (.res "r" [.res "a" []]) initState).1 =
      .ok ⟨.prim (.str "r"), ["r", "a"]⟩ ∧
    (["r", "a"] : List String).toFinset =
      insert "r" (depsUnion [⟨.prim (.str "a"), ["a"]⟩]) := by
  have T := dependency_closure 1 echoProv
  have h1 := T.1 [.res "a" []] initState
    ⟨[("a", .resolved ⟨.prim (.str "a"), ["a"]⟩)], ["a"]⟩
    [⟨.prim (.str "a"), ["a"]⟩] rfl
  have h2 := T.2.1 [("k", .res "b" [])] initState
    ⟨[("b", .resolved ⟨.prim (.str "b"), ["b"]⟩)], ["b"]⟩
    [("k", ⟨.prim (.str "b"), ["b"]⟩)] rfl
  have h3 := T.2.2 "r" [.res "a" []] initState
    ⟨[("a", .resolved ⟨.prim (.str "a"), ["a"]⟩)], ["a"]⟩
    [⟨.prim (.str "a"), ["a"]⟩] (.prim (.str "r")) rfl rfl rfl
  exact ⟨(congrArg Prod.fst h1.1).trans rfl, (congrArg Prod.fst h2.1).trans rfl,
    h3.1, h3.2⟩

/-- C5: when the provider operation fails on a cache miss, the
evaluation rejects with that error; the rejection is stored in the cache
and never evicted, so a later reference to the same Resource Handle in
the same pass (whose input evaluation succeeds) observes the same cached
failure with the state — including the invocation trace — unchanged: the
provider is not re-invoked. -/
theorem failure_cached_not_evicted (prov : Provider) (id : String) (err : String) :
    (∀ (fuel : Nat) (inputs : List Value) (s s₁ : EvalState) (evs : List Evaluated),
      evalListWith (evaluate fuel prov) inputs s = (.ok evs, s₁) →
      lookupEntry id s₁.cache = none →
      prov id (dedupFirst (evs.flatMap (fun e => e.deps)))
        (evs.map (fun e => e.value)) = .error err →
      evaluate (fuel + 1) prov (.res id inputs) s =
        (.error err,
         ⟨setEntry id (.rejected err) (setEntry id .pending s₁.cache),
          s₁.trace ++ [id]⟩) ∧
      lookupEntry id (setEntry id (.rejected err) (setEntry id .pending s₁.cache)) =
        some (.rejected err)) ∧
    (∀ (fuel : Nat) (inputs : List Value) (s s₁ : EvalState) (evs : List Evaluated),
      evalListWith (evaluate fuel prov) inputs s = (.ok evs, s₁) →
      lookupEntry id s₁.cache = some (.rejected err) →
      evaluate (fuel + 1) prov (.res id inputs) s = (.error err, s₁)) := by
  constructor
  · intro fuel inputs s s₁ evs hin hmiss hprov
    refine ⟨evaluate_res_miss_err fuel prov id inputs s s₁ evs err hin hmiss hprov, ?_⟩
    rw [lookupEntry_setEntry]
    simp
  · intro fuel inputs s s₁ evs hin hhit
    exact evaluate_res_hit_rejected fuel prov id inputs s s₁ evs err hin hhit

/-- Witness for C5: resource "c" of `failCProv` rejects on first
reference and the second reference observes the cached rejection with no
new invocation (the trace still holds a single entry). -/
theorem failure_cached_not_evicted_witness :
    evaluate 1 failCProv (.res "c" []) initState =
      (.error "boom", ⟨[("c", .rejected "boom")], ["c"]⟩) ∧
    evaluate 1 failCProv (.res "c" []) ⟨[("c", .rejected "boom")], ["c"]⟩ =
      (.error "boom", ⟨[("c", .rejected "boom")], ["c"]⟩) := by
  have T := failure_cached_not_evicted failCProv "c" "boom"
  have h1 := T.1 0 [] initState initState [] rfl rfl rfl
  have h2 := T.2 0 [] ⟨[("c", .rejected "boom")], ["c"]⟩
    ⟨[("c", .rejected "boom")], ["c"]⟩ [] rfl rfl
  exact ⟨h1.1.trans rfl, h2⟩

/-- C4 counterexample: with the module-level cache persisting between
passes (the source's `cache` is a module-scoped WeakMap), a second,
separate evaluation pass over the same Resource Handle in the same
process is served the cached result: the invocation trace still holds
exactly one entry — the claim would require a second invocation — and
the first pass's cached `Evaluated` is returned. -/
theorem cache_not_pass_scoped_cex :
    (evaluate 1 echoProv (.res "r" [])
      (evaluate 1 echoProv (.res "r" []) initState).2).2.trace = ["r"] ∧
    (evaluate 1 echoProv (.res "r" [])
      (evaluate 1 echoProv (.res "r" []) initState).2).2.trace ≠ ["r", "r"] ∧
    (evaluate 1 echoProv (.res "r" [])
      (evaluate 1 echoProv (.res "r" []) initState).2).1 =
      .ok ⟨.prim (.str "r"), ["r"]⟩ :=
  ⟨rfl, by decide, rfl⟩

/-- C4 (amended): the memoization cache is module-scoped — one map per
process, not per pass — so when the cache already holds a resolved entry
for a handle after its inputs are evaluated (for example because an
earlier pass in the same process applied it), the evaluation is served
that cached result unchanged and the provider is not invoked again (the
returned state, including the invocation trace, is exactly the
post-input state). -/
theorem cache_module_scoped (fuel : Nat) (prov : Provider) (id : String)
    (inputs : List Value) (s s₁ : EvalState) (evs : List Evaluated) (ev : Evaluated)
    (hin : evalListWith (evaluate fuel prov) inputs s = (.ok evs, s₁))
    (hhit : lookupEntry id s₁.cache = some (.resolved ev)) :
    evaluate (fuel + 1) prov (.res id inputs) s = (.ok ev, s₁) :=
  evaluate_res_hit fuel prov id inputs s s₁ evs ev hin hhit

/-- Witness for C4's amended claim: the second pass over resource "r"
returns the entry cached by the first pass, with the state unchanged. -/
theorem cache_module_scoped_witness :
    evaluate 1 echoProv (.res "r" [])
      ⟨[("r", .resolved ⟨.prim (.str "r"), ["r"]⟩)], ["r"]⟩ =
      (.ok ⟨.prim (.str "r"), ["r"]⟩,
       ⟨[("r", .resolved ⟨.prim (.str "r"), ["r"]⟩)], ["r"]⟩) :=
  cache_module_scoped 0 echoProv "r" []
    ⟨[("r", .resolved ⟨.prim (.str "r"), ["r"]⟩)], ["r"]⟩
    ⟨[("r", .resolved ⟨.prim (.str "r"), ["r"]⟩)], ["r"]⟩
    [] ⟨.prim (.str "r"), ["r"]⟩ rfl rfl

/-- C3 (reconciler modelled from the spec): when run 1 recorded
resources A and B and run 2's graph declares only A, `finalize` after
run 2 — computing orphans as the prior record ids minus the ids touched
via the dependency sets of the pass's top-level evaluations — issues a
provider delete for B and none for A. -/
theorem orphan_reconciliation (fuel : Nat) (prov : Provider) (A B : String)
    (e : Evaluated) (s' : EvalState) (hAB : A ≠ B)
    (h : evaluate (fuel + 1) prov (.res A []) initState = (.ok e, s')) :
    finalizeDeletes [A, B] [e] = [B] := by
  rcases hp : prov A [] [] with err | result
  · have heq := evaluate_res_miss_err fuel prov A [] initState initState [] err rfl rfl hp
    rw [heq] at h
    exact absurd (congrArg Prod.fst h) (by simp)
  · have heq := evaluate_res_miss_ok fuel prov A [] initState initState [] result rfl rfl hp
    rw [heq] at h
    have he : Evaluated.mk result (A :: dedupFirst ([] : List String)) = e :=
      Except.ok.inj (congrArg Prod.fst h)
    have hA : e.deps = [A] := by
      rw [← he]
      rfl
    have htouched : touchedIds [e] = [A] := by
      simp [touchedIds, hA, dedupFirst, dedupAux]
    simp only [finalizeDeletes, htouched]
    rw [List.filter_cons, List.filter_cons]
    simp [hAB, Ne.symm hAB]

/-- Witness for C3 at A = "A", B = "B": run 2 evaluates only resource
"A"; finalize deletes exactly "B". -/
theorem orphan_reconciliation_witness :
    finalizeDeletes ["A", "B"] [⟨.prim (.str "A"), ["A"]⟩] = ["B"] :=
  orphan_reconciliation 0 echoProv "A" "B" ⟨.prim (.str "A"), ["A"]⟩
    ⟨[("A", .resolved ⟨.prim (.str "A"), ["A"]⟩)], ["A"]⟩
    (by decide) rfl

/-- C9: for the fs::File, fs::Folder and ai::TypeScriptFile providers, a
delete-phase invocation whose target file or directory is already absent
succeeds — the not-found error is swallowed — and the resource is
destroyed. -/
theorem delete_succeeds_when_absent (id : String) (propsPath : Option String)
    (propsDelete : Option Bool) (p : String) (fs : FS) :
    (fs.files.any (fun f => f.1 = propsPath.getD id) = false →
      fileDeleteOp id propsPath fs = .ok (fs, true)) ∧
    (propsPath.getD id ∉ fs.dirs →
      folderDeleteOp id propsPath propsDelete fs = .ok (fs, true)) ∧
    (fs.files.any (fun f => f.1 = p) = false →
      tsFileDeleteOp p fs = .ok (mkdirRec (dirname p) fs, true)) := by
  refine ⟨?_, ?_, ?_⟩
  · intro habs
    simp [fileDeleteOp, ignoreE, unlink, habs]
  · intro habs
    by_cases hd : propsDelete = some false
    · simp [folderDeleteOp, hd]
    · simp [folderDeleteOp, hd, ignoreE, rmdir, habs]
  · intro habs
    have habs' : (mkdirRec (dirname p) fs).files.any (fun f => f.1 = p) = false := habs
    simp [tsFileDeleteOp, unlink, habs']

/-- Witness for C9 on an empty filesystem: deleting the absent file
"f.txt", the absent folder "dir" and the absent generated file
"src/x.ts" all succeed and destroy the resource. -/
theorem delete_succeeds_when_absent_witness :
    fileDeleteOp "f.txt" none ⟨[], []⟩ = .ok (⟨[], []⟩, true) ∧
    folderDeleteOp "dir" none none ⟨[], []⟩ = .ok (⟨[], []⟩, true) ∧
    tsFileDeleteOp "src/x.ts" ⟨[], []⟩ = .ok (mkdirRec (dirname "src/x.ts") ⟨[], []⟩, true) := by
  have T := delete_succeeds_when_absent "f.txt" none none "src/x.ts" (⟨[], []⟩ : FS)
  exact ⟨T.1 rfl, T.2.1 (by simp), T.2.2 rfl⟩

/-- C10: `extractTypeScriptCode` returns an error — with empty code —
exactly when the number of ts-fenced code blocks (regex matches) in the
text is zero or greater than one; with exactly one block it returns that
block's capture trimmed of surrounding whitespace and no error. -/
theorem extract_code_error_iff (text : String) :
    ((extractTypeScriptCode text).error.isSome ↔
      (tsMatches text.toList).length = 0 ∨ 1 < (tsMatches text.toList).length) ∧
    ((tsMatches text.toList).length ≠ 1 → (extractTypeScriptCode text).code = "") ∧
    ((tsMatches text.toList).length = 1 →
      (extractTypeScriptCode text).error = none ∧
      (extractTypeScriptCode text).code =
        String.mk (trimChars ((tsMatches text.toList).headD []))) := by
  refine ⟨?_, ?_, ?_⟩
  · by_cases h0 : (tsMatches text.toList).length = 0
    · have hnil : tsMatches text.data = [] := List.length_eq_zero.mp h0
      simp [extractTypeScriptCode, hnil]
    · have hne : tsMatches text.data ≠ [] := by
        intro hh
        have hh2 : tsMatches text.toList = [] := hh
        rw [hh2] at h0
        exact h0 rfl
      by_cases h1 : 1 < (tsMatches text.toList).length
      · have h1' : 1 < (tsMatches text.data).length := h1
        simp [extractTypeScriptCode, hne, h1']
      · have hone : (tsMatches text.toList).length = 1 := by omega
        obtain ⟨m, hm⟩ := List.length_eq_one.mp hone
        have hm' : tsMatches text.data = [m] := hm
        simp [extractTypeScriptCode, hm']
  · intro hnot
    by_cases h0 : (tsMatches text.toList).length = 0
    · have hnil : tsMatches text.data = [] := List.length_eq_zero.mp h0
      simp [extractTypeScriptCode, hnil]
    · have h1 : 1 < (tsMatches text.toList).length := by omega
      have h1' : 1 < (tsMatches text.data).length := h1
      have hne : tsMatches text.data ≠ [] := by
        intro hh
        have hh2 : tsMatches text.toList = [] := hh
        rw [hh2] at h0
        exact h0 rfl
      simp [extractTypeScriptCode, hne, h1']
  · intro hone
    obtain ⟨m, hm⟩ := List.length_eq_one.mp hone
    have hm' : tsMatches text.data = [m] := hm
    simp [extractTypeScriptCode, hm']

/-- Witness for C10: a text with exactly one ts-fenced block yields its
trimmed content and no error. -/
theorem extract_code_error_iff_witness :
    (extractTypeScriptCode "```ts\nlet x = 1\n```").error = none ∧
    (extractTypeScriptCode "```ts\nlet x = 1\n```").code = "let x = 1" := by
  have T := (extract_code_error_iff "```ts\nlet x = 1\n```").2.2 (by rfl)
  exact ⟨T.1, T.2.trans rfl⟩

end Alchemy
